import Mathlib

/-!
Verification of the concurrent pagination and local mirror/cache core of the
yonote CLI (files `core/utils.py`, `core/cache.py`, `core/interactive.py`,
`commands/documents.py`), as a shallow embedding in Lean.

The network is modelled as a function `server : Nat → Except ε (List α)`
mapping a request offset to the page the endpoint returns (or to the
exception that the page fetch raises).  Out-of-order completion of the
futures of one worker round is modelled by a schedule `sched` that permutes
the round's dispatched offsets into their completion order.  Loops whose
termination is not structural are given explicit fuel and return `none` when
the fuel runs out, so non-termination of the Python loop is observable as
`none` for every fuel.
-/

namespace Yonote

/-- `API_MAX_LIMIT` from `core/config.py`. -/
def API_MAX_LIMIT : Nat := 100

/-- One page of a data set under standard limit/offset slicing: the records
at positions `off, off+1, ..., off+limit-1`. -/
def pageOf (ds : List α) (limit off : Nat) : List α :=
  (ds.drop off).take limit

/-- The honest server: every page fetch succeeds and returns the slice of the
data set, as assumed by the short-page pagination protocol. -/
def pureServer (ds : List α) (limit : Nat) : Nat → Except Unit (List α) :=
  fun off => .ok (pageOf ds limit off)

/-- A server that behaves like `pureServer ds limit` except that the single
page fetch at offset `limit * j` fails fatally. -/
def faultyServer (ds : List α) (limit j : Nat) : Nat → Except Unit (List α) :=
  fun off => if off = limit * j then .error () else .ok (pageOf ds limit off)

/-- The offsets dispatched in one round:
`offsets = list(range(next_offset, next_offset + limit * workers, limit))`
(`fetch_all_concurrent`, `core/utils.py` line 94).  For `limit ≥ 1` the
Python range has exactly `workers` elements; for `workers = 0` (and, in
Python, for negative `workers`) it is empty. -/
def roundOffsets (next limit workers : Nat) : List Nat :=
  (List.range workers).map (fun i => next + i * limit)

/-- Drain one round's futures in completion order (`as_completed`): each
`fut.result()` either re-raises the page fetch's exception, aborting the
whole round, or contributes its page to `results` while the round remembers
whether any of its pages was short (`core/utils.py` lines 100-106). -/
def runRound (server : Nat → Except ε (List α)) (limit : Nat) :
    List Nat → Except ε (List α × Bool)
  | [] => .ok ([], false)
  | off :: rest =>
    match server off with
    | .error e => .error e
    | .ok page =>
      match runRound server limit rest with
      | .error e => .error e
      | .ok (items, stop) => .ok (page ++ items, stop || decide (page.length < limit))

/-- The `while True` round loop of `fetch_all_concurrent`
(`core/utils.py` lines 93-109): dispatch a round of offsets, break if the
offsets list is empty, collect the round's pages in completion order
(given by `sched`), stop after a round that saw a short page, otherwise
advance `next_offset` by `limit * workers`.  The second component counts
page requests issued by the loop.  `none` means the fuel ran out. -/
def fetchLoop (server : Nat → Except ε (List α)) (limit workers : Nat)
    (sched : Nat → List Nat → List Nat) :
    Nat → Nat → Nat → Option (Except ε (List α × Nat))
  | _, _, 0 => none
  | next, round, fuel + 1 =>
    if (roundOffsets next limit workers).isEmpty then some (.ok ([], 0))
    else
      match runRound server limit (sched round (roundOffsets next limit workers)) with
      | .error e => some (.error e)
      | .ok (items, stop) =>
        if stop then some (.ok (items, (roundOffsets next limit workers).length))
        else
          match fetchLoop server limit workers sched (next + limit * workers) (round + 1) fuel with
          | none => none
          | some (.error e) => some (.error e)
          | some (.ok (rest, n)) =>
            some (.ok (items ++ rest, (roundOffsets next limit workers).length + n))

/-- `fetch_all_concurrent` (`core/utils.py` lines 66-110): clamp the limit,
fetch the page at offset 0 synchronously, return it alone if it is short,
otherwise run worker rounds until one observes a short page.  The result
pairs the aggregated records with the number of page requests issued. -/
def fetch_all_concurrent (server : Nat → Except ε (List α)) (limit₀ workers : Nat)
    (sched : Nat → List Nat → List Nat) (fuel : Nat) :
    Option (Except ε (List α × Nat)) :=
  match server 0 with
  | .error e => some (.error e)
  | .ok first =>
    if first.length < min limit₀ API_MAX_LIMIT then some (.ok (first, 1))
    else
      match fetchLoop server (min limit₀ API_MAX_LIMIT) workers sched
          (min limit₀ API_MAX_LIMIT) 0 fuel with
      | none => none
      | some (.error e) => some (.error e)
      | some (.ok (rest, n)) => some (.ok (first ++ rest, 1 + n))

theorem pageOf_length (ds : List α) (limit off : Nat) :
    (pageOf ds limit off).length = min limit (ds.length - off) := by
  simp [pageOf]

theorem pageOf_short_iff (ds : List α) {limit : Nat} (hL : 0 < limit) (i : Nat) :
    (pageOf ds limit (limit * i)).length < limit ↔ ds.length / limit ≤ i := by
  rw [pageOf_length]
  have hmul : (i + 1) * limit = limit * i + limit := by ring
  constructor
  · intro h
    have h2 : ds.length < (i + 1) * limit := by omega
    have := (Nat.div_lt_iff_lt_mul hL).mpr h2
    omega
  · intro h
    have h2 : ds.length / limit < i + 1 := by omega
    have := (Nat.div_lt_iff_lt_mul hL).mp h2
    omega

theorem runRound_ok (server : Nat → Except ε (List α)) (ds : List α) (limit : Nat)
    (ord : List Nat) (h : ∀ off ∈ ord, server off = .ok (pageOf ds limit off)) :
    runRound server limit ord
      = .ok (ord.flatMap (pageOf ds limit),
          ord.any (fun off => decide ((pageOf ds limit off).length < limit))) := by
  induction ord with
  | nil => rfl
  | cons off rest ih =>
    have hoff := h off (List.mem_cons_self off rest)
    have hrest := ih (fun o ho => h o (List.mem_cons_of_mem off ho))
    simp only [runRound, hoff, hrest, List.flatMap_cons, List.any_cons]
    rw [Bool.or_comm]

theorem flatMap_roundOffsets (ds : List α) (limit : Nat) :
    ∀ workers p, (roundOffsets (limit * p) limit workers).flatMap (pageOf ds limit)
      = (ds.drop (limit * p)).take (limit * workers) := by
  intro workers
  induction workers with
  | zero => intro p; simp [roundOffsets]
  | succ w ih =>
    intro p
    have hshift : roundOffsets (limit * p) limit (w + 1)
        = limit * p :: roundOffsets (limit * (p + 1)) limit w := by
      simp only [roundOffsets, List.range_succ_eq_map, List.map_cons, List.map_map,
        List.cons.injEq]
      constructor
      · omega
      · apply List.map_congr_left
        intro i _
        simp only [Function.comp_apply, Nat.succ_eq_add_one]
        ring
    rw [hshift, List.flatMap_cons, ih (p + 1)]
    have hdrop : ds.drop (limit * (p + 1)) = (ds.drop (limit * p)).drop limit := by
      rw [List.drop_drop]
      ring_nf
    rw [hdrop]
    have : limit * (w + 1) = limit + limit * w := by ring
    rw [this, List.take_add]
    rfl

theorem any_eq_of_perm {l₁ l₂ : List β} (h : l₁.Perm l₂) (f : β → Bool) :
    l₁.any f = l₂.any f := by
  simp [List.any_eq, h.mem_iff]

theorem roundOffsets_length (next limit workers : Nat) :
    (roundOffsets next limit workers).length = workers := by
  simp [roundOffsets]

theorem roundOffsets_isEmpty_false (next limit : Nat) {workers : Nat} (hw : 0 < workers) :
    (roundOffsets next limit workers).isEmpty = false := by
  cases workers with
  | zero => omega
  | succ w => simp [roundOffsets, List.range_succ_eq_map, List.isEmpty]

theorem any_short_roundOffsets (ds : List α) {limit : Nat} (hL : 0 < limit)
    (p : Nat) {workers : Nat} (hw : 0 < workers) :
    (roundOffsets (limit * p) limit workers).any
        (fun off => decide ((pageOf ds limit off).length < limit))
      = decide (ds.length / limit < p + workers) := by
  rw [List.any_eq, decide_eq_decide]
  constructor
  · rintro ⟨off, hmem, hoff⟩
    simp only [roundOffsets, List.mem_map, List.mem_range] at hmem
    obtain ⟨i, hi, rfl⟩ := hmem
    have heq : limit * p + i * limit = limit * (p + i) := by ring
    rw [heq, decide_eq_true_eq] at hoff
    have := (pageOf_short_iff ds hL (p + i)).mp hoff
    omega
  · intro h
    refine ⟨limit * p + (ds.length / limit - p) * limit, ?_, ?_⟩
    · simp only [roundOffsets, List.mem_map, List.mem_range]
      exact ⟨ds.length / limit - p, by omega, rfl⟩
    · have heq : limit * p + (ds.length / limit - p) * limit
          = limit * (p + (ds.length / limit - p)) := by ring
      rw [heq, decide_eq_true_eq]
      exact (pageOf_short_iff ds hL _).mpr (by omega)

theorem fetchLoop_step_stop {server : Nat → Except ε (List α)} {limit workers : Nat}
    {sched : Nat → List Nat → List Nat} {next round fuel : Nat} {items : List α}
    (h1 : (roundOffsets next limit workers).isEmpty = false)
    (h2 : runRound server limit (sched round (roundOffsets next limit workers))
        = .ok (items, true)) :
    fetchLoop server limit workers sched next round (fuel + 1)
      = some (.ok (items, (roundOffsets next limit workers).length)) := by
  simp [fetchLoop, h1, h2]

theorem fetchLoop_step_go {server : Nat → Except ε (List α)} {limit workers : Nat}
    {sched : Nat → List Nat → List Nat} {next round fuel : Nat} {items : List α}
    (h1 : (roundOffsets next limit workers).isEmpty = false)
    (h2 : runRound server limit (sched round (roundOffsets next limit workers))
        = .ok (items, false)) :
    fetchLoop server limit workers sched next round (fuel + 1)
      = match fetchLoop server limit workers sched (next + limit * workers) (round + 1) fuel with
        | none => none
        | some (.error e) => some (.error e)
        | some (.ok (rest, n)) =>
          some (.ok (items ++ rest, (roundOffsets next limit workers).length + n)) := by
  simp [fetchLoop, h1, h2]

theorem fetchLoop_step_error {server : Nat → Except ε (List α)} {limit workers : Nat}
    {sched : Nat → List Nat → List Nat} {next round fuel : Nat} {e : ε}
    (h1 : (roundOffsets next limit workers).isEmpty = false)
    (h2 : runRound server limit (sched round (roundOffsets next limit workers)) = .error e) :
    fetchLoop server limit workers sched next round (fuel + 1) = some (.error e) := by
  simp [fetchLoop, h1, h2]

theorem fetchLoop_pure (ds : List α) {limit workers : Nat}
    (sched : Nat → List Nat → List Nat) (hL : 0 < limit) (hw : 0 < workers)
    (hs : ∀ r offs, (sched r offs).Perm offs) :
    ∀ m p r : Nat, 0 < p → p ≤ ds.length / limit →
      (ds.length / limit - p) / workers = m →
      ∃ res : List α,
        fetchLoop (pureServer ds limit) limit workers sched (limit * p) r (m + 1)
          = some (.ok (res, workers * (m + 1)))
        ∧ res.Perm (ds.drop (limit * p)) := by
  intro m
  induction m with
  | zero =>
    intro p r hp hpq hm
    have hlt : ds.length / limit - p < workers := by
      by_contra hge
      have h1 : 1 ≤ (ds.length / limit - p) / workers :=
        (Nat.one_le_div_iff hw).mpr (by omega)
      omega
    have hrun := runRound_ok (pureServer ds limit) ds limit
      (sched r (roundOffsets (limit * p) limit workers)) (fun off _ => rfl)
    have hany : (sched r (roundOffsets (limit * p) limit workers)).any
        (fun off => decide ((pageOf ds limit off).length < limit)) = true := by
      rw [any_eq_of_perm (hs r _), any_short_roundOffsets ds hL p hw, decide_eq_true_eq]
      omega
    have hrun' : runRound (pureServer ds limit) limit
        (sched r (roundOffsets (limit * p) limit workers))
        = .ok ((sched r (roundOffsets (limit * p) limit workers)).flatMap (pageOf ds limit),
            true) := by
      rw [hrun, hany]
    refine ⟨(sched r (roundOffsets (limit * p) limit workers)).flatMap (pageOf ds limit),
      ?_, ?_⟩
    · rw [fetchLoop_step_stop (roundOffsets_isEmpty_false _ _ hw) hrun',
        roundOffsets_length]
      norm_num
    · have hperm := List.Perm.flatMap_right (pageOf ds limit)
        (hs r (roundOffsets (limit * p) limit workers))
      rw [flatMap_roundOffsets] at hperm
      have hlen : (ds.drop (limit * p)).length ≤ limit * workers := by
        rw [List.length_drop]
        have h2 : ds.length < (p + workers) * limit :=
          (Nat.div_lt_iff_lt_mul hL).mp (by omega)
        have h3 : (p + workers) * limit = limit * p + limit * workers := by ring
        omega
      rwa [List.take_of_length_le hlen] at hperm
  | succ m ih =>
    intro p r hp hpq hm
    have hge : workers ≤ ds.length / limit - p := by
      by_contra hlt
      rw [Nat.div_eq_of_lt (by omega)] at hm
      omega
    have hrun := runRound_ok (pureServer ds limit) ds limit
      (sched r (roundOffsets (limit * p) limit workers)) (fun off _ => rfl)
    have hany : (sched r (roundOffsets (limit * p) limit workers)).any
        (fun off => decide ((pageOf ds limit off).length < limit)) = false := by
      rw [any_eq_of_perm (hs r _), any_short_roundOffsets ds hL p hw]
      simp only [decide_eq_false_iff_not]
      omega
    have hrun' : runRound (pureServer ds limit) limit
        (sched r (roundOffsets (limit * p) limit workers))
        = .ok ((sched r (roundOffsets (limit * p) limit workers)).flatMap (pageOf ds limit),
            false) := by
      rw [hrun, hany]
    have hm' : (ds.length / limit - (p + workers)) / workers = m := by
      have hstep := Nat.div_eq_sub_div hw hge
      rw [show ds.length / limit - p - workers = ds.length / limit - (p + workers) from by
        omega] at hstep
      omega
    obtain ⟨res', hres', hperm'⟩ := ih (p + workers) (r + 1) (by omega) (by omega) hm'
    refine ⟨(sched r (roundOffsets (limit * p) limit workers)).flatMap (pageOf ds limit)
        ++ res', ?_, ?_⟩
    · rw [fetchLoop_step_go (roundOffsets_isEmpty_false _ _ hw) hrun']
      have harg : limit * p + limit * workers = limit * (p + workers) := by ring
      rw [harg, hres', roundOffsets_length]
      have hcount : workers + workers * (m + 1) = workers * (m + 1 + 1) := by ring
      simp [hcount]
    · have hitems := List.Perm.flatMap_right (pageOf ds limit)
        (hs r (roundOffsets (limit * p) limit workers))
      rw [flatMap_roundOffsets] at hitems
      have hdrop : ds.drop (limit * (p + workers)) = (ds.drop (limit * p)).drop (limit * workers) := by
        rw [List.drop_drop]
        ring_nf
      rw [hdrop] at hperm'
      exact (List.Perm.append hitems hperm').trans
        (by rw [List.take_append_drop])

/-- C1.  For every data set served with standard limit/offset slicing, every
`workers ≥ 1` and requested page size `limit₀ ≥ 1`, and every completion
order of the pages within the worker rounds (`sched`), `fetch_all_concurrent`
returns exactly the records of the data set — a permutation: no duplicates,
no drops — and issues `1` page request when the first page is already short,
else `1 + workers * ⌈(len/limit)/workers⌉` requests, where `limit` is the
clamped page size; the fuel `⌈(len/limit + workers - 1)/workers⌉` shows the
loop stops with the first round that observes a short page. -/
theorem fetch_all_concurrent_complete (ds : List α) (limit₀ workers : Nat)
    (sched : Nat → List Nat → List Nat)
    (hl : 1 ≤ limit₀) (hw : 1 ≤ workers)
    (hs : ∀ r offs, (sched r offs).Perm offs) :
    ∃ res : List α,
      fetch_all_concurrent (pureServer ds (min limit₀ API_MAX_LIMIT)) limit₀ workers sched
          ((ds.length / min limit₀ API_MAX_LIMIT + workers - 1) / workers)
        = some (.ok (res,
            if ds.length < min limit₀ API_MAX_LIMIT then 1
            else 1 + workers * ((ds.length / min limit₀ API_MAX_LIMIT + workers - 1) / workers)))
      ∧ res.Perm ds := by
  simp only [fetch_all_concurrent, pureServer]
  generalize hLg : min limit₀ API_MAX_LIMIT = L
  have hL : 0 < L := by
    have : API_MAX_LIMIT = 100 := rfl
    omega
  have hpage0 : pageOf ds L 0 = ds.take L := by simp [pageOf]
  rw [hpage0]
  by_cases hk : ds.length < L
  · have hcond : (ds.take L).length < L := by
      rw [List.length_take]
      omega
    rw [if_pos hcond, if_pos hk, List.take_of_length_le (by omega)]
    exact ⟨ds, rfl, List.Perm.refl ds⟩
  · have hq : 1 ≤ ds.length / L := (Nat.one_le_div_iff hL).mpr (by omega)
    have hcond : ¬(ds.take L).length < L := by
      rw [List.length_take]
      omega
    rw [if_neg hcond, if_neg hk]
    have hF : (ds.length / L + workers - 1) / workers = (ds.length / L - 1) / workers + 1 := by
      rw [show ds.length / L + workers - 1 = (ds.length / L - 1) + workers from by omega,
        Nat.add_div_right _ hw]
    obtain ⟨res, hres, hperm⟩ := fetchLoop_pure ds sched hL hw hs
      ((ds.length / L - 1) / workers) 1 0 one_pos (by omega) rfl
    simp only [Nat.mul_one] at hres hperm
    rw [hF, hres]
    refine ⟨ds.take L ++ res, rfl, ?_⟩
    exact (List.Perm.append (List.Perm.refl (ds.take L)) hperm).trans
      (by rw [List.take_append_drop])

theorem fetch_all_concurrent_complete_witness :
    ∃ res : List Nat,
      fetch_all_concurrent (pureServer [10, 11, 12] (min 2 API_MAX_LIMIT)) 2 2
          (fun _ offs => offs) (([10, 11, 12].length / min 2 API_MAX_LIMIT + 2 - 1) / 2)
        = some (.ok (res,
            if [10, 11, 12].length < min 2 API_MAX_LIMIT then 1
            else 1 + 2 * (([10, 11, 12].length / min 2 API_MAX_LIMIT + 2 - 1) / 2)))
      ∧ res.Perm [10, 11, 12] :=
  fetch_all_concurrent_complete [10, 11, 12] 2 2 (fun _ offs => offs)
    (by norm_num) (by norm_num) (fun _ offs => List.Perm.refl offs)

/-- C5 (amended).  For `workers = 0` (Python: any `workers < 1`), the round's
offsets list `range(next_offset, next_offset + limit*workers, limit)` is
empty, so the loop breaks before dispatching anything: the call returns only
the first page (one request) — it does not behave like `workers = 1`.  The
`max(1, workers)` clamp in the source applies only to the thread-pool size
parameter, not to the offsets dispatched. -/
theorem fetch_all_concurrent_zero_workers (ds : List α) (limit₀ : Nat)
    (sched : Nat → List Nat → List Nat) (fuel : Nat) :
    fetch_all_concurrent (pureServer ds (min limit₀ API_MAX_LIMIT)) limit₀ 0 sched (fuel + 1)
      = some (.ok (ds.take (min limit₀ API_MAX_LIMIT), 1)) := by
  simp only [fetch_all_concurrent, pureServer]
  generalize min limit₀ API_MAX_LIMIT = L
  have hpage0 : pageOf ds L 0 = ds.take L := by simp [pageOf]
  rw [hpage0]
  by_cases hk : (ds.take L).length < L
  · rw [if_pos hk]
  · rw [if_neg hk]
    have hloop : fetchLoop (pureServer ds L) L 0 sched L 0 (fuel + 1)
        = some (.ok ([], 0)) := by
      simp [fetchLoop, roundOffsets]
    rw [hloop]
    simp

/-- C5 counterexample: on a two-record data set with `limit = 1`,
`workers = 0` yields only the first record (the loop breaks immediately on
the empty offsets list), while `workers = 1` yields both records — the
observable result for `workers < 1` is not that of one worker. -/
theorem fetch_all_concurrent_workers_cex :
    fetch_all_concurrent (pureServer [10, 11] 1) 1 0 (fun _ offs => offs) 5
        = some (.ok ([10], 1))
      ∧ fetch_all_concurrent (pureServer [10, 11] 1) 1 1 (fun _ offs => offs) 5
        = some (.ok ([10, 11], 3))
      ∧ ([10] : List Nat) ≠ [10, 11] := by
  refine ⟨rfl, rfl, by decide⟩

theorem runRound_error {server : Nat → Except Unit (List α)} {limit : Nat}
    {ord : List Nat} {off : Nat} (hmem : off ∈ ord) (hfail : server off = .error ()) :
    runRound server limit ord = .error () := by
  induction ord with
  | nil => cases hmem
  | cons o rest ih =>
    by_cases ho : server o = .error ()
    · simp [runRound, ho]
    · rcases List.mem_cons.mp hmem with rfl | hmem'
      · exact absurd hfail ho
      · cases hso : server o with
        | error e => cases e; exact absurd hso ho
        | ok page => simp [runRound, hso, ih hmem']

theorem mul_mem_roundOffsets {limit : Nat} {p workers j : Nat}
    (hpj : p ≤ j) (hjw : j < p + workers) :
    limit * j ∈ roundOffsets (limit * p) limit workers := by
  simp only [roundOffsets, List.mem_map, List.mem_range]
  refine ⟨j - p, by omega, ?_⟩
  have : limit * p + (j - p) * limit = limit * (p + (j - p)) := by ring
  rw [this, show p + (j - p) = j from by omega]

theorem fetchLoop_faulty (ds : List α) {limit workers : Nat}
    (sched : Nat → List Nat → List Nat) (hL : 0 < limit) (hw : 0 < workers)
    (hs : ∀ r offs, (sched r offs).Perm offs) (j : Nat) (hjq : j ≤ ds.length / limit) :
    ∀ fuel p r : Nat, 0 < p → p ≤ j → (j - p) / workers + 1 ≤ fuel →
      fetchLoop (faultyServer ds limit j) limit workers sched (limit * p) r fuel
        = some (.error ()) := by
  intro fuel
  induction fuel with
  | zero => intro p r _ _ hfuel; exact absurd hfuel (Nat.not_succ_le_zero _)
  | succ f ih =>
    intro p r hp hpj hfuel
    by_cases hjr : j < p + workers
    · have hmem : limit * j ∈ sched r (roundOffsets (limit * p) limit workers) :=
        ((hs r _).mem_iff).mpr (mul_mem_roundOffsets hpj hjr)
      have hfail : faultyServer ds limit j (limit * j) = .error () := by
        simp [faultyServer]
      rw [fetchLoop_step_error (roundOffsets_isEmpty_false _ _ hw)
        (runRound_error hmem hfail)]
    · have hge : p + workers ≤ j := by omega
      have hclean : ∀ off ∈ sched r (roundOffsets (limit * p) limit workers),
          faultyServer ds limit j off = .ok (pageOf ds limit off) := by
        intro off hoff
        have hoff' := ((hs r _).mem_iff).mp hoff
        simp only [roundOffsets, List.mem_map, List.mem_range] at hoff'
        obtain ⟨i, hi, rfl⟩ := hoff'
        have heq : limit * p + i * limit = limit * (p + i) := by ring
        have hne : limit * p + i * limit ≠ limit * j := by
          rw [heq]
          intro hcontra
          have := Nat.eq_of_mul_eq_mul_left hL hcontra
          omega
        simp [faultyServer, hne]
      have hrun := runRound_ok (faultyServer ds limit j) ds limit
        (sched r (roundOffsets (limit * p) limit workers)) hclean
      have hany : (sched r (roundOffsets (limit * p) limit workers)).any
          (fun off => decide ((pageOf ds limit off).length < limit)) = false := by
        rw [any_eq_of_perm (hs r _), any_short_roundOffsets ds hL p hw]
        simp only [decide_eq_false_iff_not]
        omega
      have hrun' : runRound (faultyServer ds limit j) limit
          (sched r (roundOffsets (limit * p) limit workers))
          = .ok ((sched r (roundOffsets (limit * p) limit workers)).flatMap (pageOf ds limit),
              false) := by
        rw [hrun, hany]
      rw [fetchLoop_step_go (roundOffsets_isEmpty_false _ _ hw) hrun']
      have harg : limit * p + limit * workers = limit * (p + workers) := by ring
      have hfuel' : (j - (p + workers)) / workers + 1 ≤ f := by
        have hstep := Nat.div_eq_sub_div hw (show workers ≤ j - p from by omega)
        rw [show j - p - workers = j - (p + workers) from by omega] at hstep
        omega
      rw [harg, ih (p + workers) (r + 1) (by omega) (by omega) hfuel']

/-- If the single page fetch at offset `limit * j` fails fatally — `j` being
any page index the fetcher reaches, i.e. `j ≤ len/limit` — the whole
`fetch_all_concurrent` call fails. -/
theorem fetch_all_concurrent_faulty (ds : List α) (limit₀ workers : Nat)
    (sched : Nat → List Nat → List Nat)
    (hl : 1 ≤ limit₀) (hw : 1 ≤ workers)
    (hs : ∀ r offs, (sched r offs).Perm offs) (j : Nat)
    (hjq : j ≤ ds.length / min limit₀ API_MAX_LIMIT) :
    fetch_all_concurrent (faultyServer ds (min limit₀ API_MAX_LIMIT) j) limit₀ workers sched
        ((ds.length / min limit₀ API_MAX_LIMIT + workers - 1) / workers)
      = some (.error ()) := by
  simp only [fetch_all_concurrent]
  generalize hLg : min limit₀ API_MAX_LIMIT = L at hjq
  have hL : 0 < L := by
    have : API_MAX_LIMIT = 100 := rfl
    omega
  cases Nat.eq_zero_or_pos j with
  | inl hj0 =>
    subst hj0
    have h0 : faultyServer ds L 0 0 = .error () := by simp [faultyServer]
    rw [h0]
  | inr hj1 =>
    have h0 : faultyServer ds L j 0 = .ok (pageOf ds L 0) := by
      have : (0 : Nat) ≠ L * j := by
        have : 1 * 1 ≤ L * j := Nat.mul_le_mul hL hj1
        omega
      simp [faultyServer, this]
    simp only [h0]
    have hq : 1 ≤ ds.length / L := le_trans hj1 hjq
    have hk : ¬ds.length < L := by
      intro hlt
      rw [Nat.div_eq_of_lt hlt] at hq
      omega
    have hpage0 : pageOf ds L 0 = ds.take L := by simp [pageOf]
    have hcond : ¬(pageOf ds L 0).length < L := by
      rw [hpage0, List.length_take]
      omega
    rw [if_neg hcond]
    have hfuel : (j - 1) / workers + 1 ≤ (ds.length / L + workers - 1) / workers := by
      have hmono : (j - 1) / workers ≤ (ds.length / L - 1) / workers :=
        Nat.div_le_div_right (by omega)
      have hF : (ds.length / L + workers - 1) / workers
          = (ds.length / L - 1) / workers + 1 := by
        rw [show ds.length / L + workers - 1 = (ds.length / L - 1) + workers from by omega,
          Nat.add_div_right _ hw]
      omega
    have hcall := fetchLoop_faulty ds sched hL hw hs j hjq
      ((ds.length / L + workers - 1) / workers) 1 0 one_pos hj1 hfuel
    simp only [Nat.mul_one] at hcall
    rw [hcall]

/-- The mirror file's content (`~/.yonote-cache.json`): one JSON object
mapping cache keys to lists of records, modelled as an association list with
dictionary semantics (at most one binding per key is ever observable). -/
abbrev CacheMap (α : Type) := List (String × List α)

/-- Dictionary read `cache.get(key)` / `key in cache`. -/
def lookupC (c : CacheMap α) (key : String) : Option (List α) :=
  (c.find? (fun kv => kv.1 == key)).map (fun kv => kv.2)

/-- Dictionary write `cache[key] = v`: replace the binding if present,
append it otherwise. -/
def updateC : CacheMap α → String → List α → CacheMap α
  | [], key, v => [(key, v)]
  | kv :: rest, key, v =>
    if kv.1 == key then (key, v) :: rest else kv :: updateC rest key v

theorem lookupC_updateC_self (c : CacheMap α) (key : String) (v : List α) :
    lookupC (updateC c key v) key = some v := by
  induction c with
  | nil => simp [lookupC, updateC, List.find?]
  | cons kv rest ih =>
    by_cases h : kv.1 == key
    · simp [lookupC, updateC, h, List.find?]
    · simp only [updateC, h, if_false, Bool.false_eq_true]
      simpa [lookupC, List.find?, h] using ih

theorem lookupC_updateC_other (c : CacheMap α) (key : String) (v : List α)
    (k : String) (h : k ≠ key) :
    lookupC (updateC c key v) k = lookupC c k := by
  have hbk : (key == k) = false := by
    simp only [beq_eq_false_iff_ne, ne_eq]
    exact fun hc => h hc.symm
  induction c with
  | nil => simp [lookupC, updateC, List.find?, hbk]
  | cons kv rest ih =>
    by_cases hkv : kv.1 == key
    · have hkvk : (kv.1 == k) = false := by
        simp only [beq_iff_eq] at hkv
        simp [beq_eq_false_iff_ne, hkv]
        exact fun hc => h hc.symm
      simp [lookupC, updateC, hkv, List.find?, hbk, hkvk]
    · simp only [updateC, hkv, if_false, Bool.false_eq_true]
      by_cases hk2 : kv.1 == k
      · simp [lookupC, List.find?, hk2]
      · simpa [lookupC, List.find?, hk2] using ih

/-- The outcome of one lister call (`list_documents_in_collection` or
`list_collections`, `core/cache.py`): the value returned to the caller
(`none` = the fetch loop's fuel ran out, error = a page fetch raised), the
mirror file's content afterwards, the number of `fetch_all_concurrent`
invocations, and the number of `save_cache` invocations. -/
structure ListResult (α : Type) where
  result : Option (Except Unit (List α))
  cacheAfter : CacheMap α
  fetchCalls : Nat
  saveCalls : Nat

/-- `list_documents_in_collection` (`core/cache.py` lines 55-80): load the
cache when `use_cache`, take the fast path when `use_cache`, not
`refresh_cache` and the key is present; otherwise fetch live and, when
`use_cache`, store the result under `collection:<id>` and save. -/
def list_documents_in_collection (server : Nat → Except Unit (List α))
    (workers : Nat) (sched : Nat → List Nat → List Nat) (fuel : Nat)
    (cache : CacheMap α) (collection_id : String) (use_cache refresh_cache : Bool) :
    ListResult α :=
  let c := if use_cache then cache else []
  let coll_key := "collection:" ++ collection_id
  match (if use_cache && !refresh_cache then lookupC c coll_key else none) with
  | some v => ⟨some (.ok v), cache, 0, 0⟩
  | none =>
    match fetch_all_concurrent server API_MAX_LIMIT workers sched fuel with
    | none => ⟨none, cache, 1, 0⟩
    | some (.error e) => ⟨some (.error e), cache, 1, 0⟩
    | some (.ok (docs, _)) =>
      if use_cache then ⟨some (.ok docs), updateC c coll_key docs, 1, 1⟩
      else ⟨some (.ok docs), cache, 1, 0⟩

/-- `list_collections` (`core/cache.py` lines 28-52): same contract under the
fixed key `"collections"`. -/
def list_collections (server : Nat → Except Unit (List α))
    (workers : Nat) (sched : Nat → List Nat → List Nat) (fuel : Nat)
    (cache : CacheMap α) (use_cache refresh_cache : Bool) :
    ListResult α :=
  let c := if use_cache then cache else []
  match (if use_cache && !refresh_cache then lookupC c "collections" else none) with
  | some v => ⟨some (.ok v), cache, 0, 0⟩
  | none =>
    match fetch_all_concurrent server API_MAX_LIMIT workers sched fuel with
    | none => ⟨none, cache, 1, 0⟩
    | some (.error e) => ⟨some (.error e), cache, 1, 0⟩
    | some (.ok (cols, _)) =>
      if use_cache then ⟨some (.ok cols), updateC c "collections" cols, 1, 1⟩
      else ⟨some (.ok cols), cache, 1, 0⟩

/-- C3.  If `use_cache` is true, `refresh_cache` is false and the key
`collection:<id>` is present, `list_documents_in_collection` returns the
cached list verbatim with zero fetches and zero saves; otherwise (in
particular whenever `refresh_cache` is true) it performs one live
`fetch_all_concurrent` and, when `use_cache` is true, overwrites the cache
entry with the new result — unconditionally, whatever the new length. -/
theorem list_documents_in_collection_spec (server : Nat → Except Unit (List α))
    (workers : Nat) (sched : Nat → List Nat → List Nat) (fuel : Nat)
    (cache : CacheMap α) (cid : String) (use_cache refresh_cache : Bool) :
    (∀ v, use_cache = true → refresh_cache = false →
        lookupC cache ("collection:" ++ cid) = some v →
        list_documents_in_collection server workers sched fuel cache cid use_cache refresh_cache
          = ⟨some (.ok v), cache, 0, 0⟩)
    ∧ (∀ docs n,
        (refresh_cache = true ∨ use_cache = false
          ∨ lookupC cache ("collection:" ++ cid) = none) →
        fetch_all_concurrent server API_MAX_LIMIT workers sched fuel = some (.ok (docs, n)) →
        list_documents_in_collection server workers sched fuel cache cid use_cache refresh_cache
          = ⟨some (.ok docs),
              if use_cache then updateC cache ("collection:" ++ cid) docs else cache,
              1, if use_cache then 1 else 0⟩) := by
  constructor
  · intro v h1 h2 h3
    subst h1
    subst h2
    simp [list_documents_in_collection, h3]
  · intro docs n hmiss hfetch
    cases use_cache with
    | false => simp [list_documents_in_collection, hfetch]
    | true =>
      cases refresh_cache with
      | true => simp [list_documents_in_collection, hfetch]
      | false =>
        have hnone : lookupC cache ("collection:" ++ cid) = none := by
          rcases hmiss with h | h | h
          · exact absurd h (by simp)
          · exact absurd h (by simp)
          · exact h
        simp [list_documents_in_collection, hnone, hfetch]

theorem list_documents_in_collection_spec_witness :
    (list_documents_in_collection (pureServer ([] : List Nat) 100) 1 (fun _ offs => offs) 0
        [("collection:x", [7])] "x" true false
      = ⟨some (.ok [7]), [("collection:x", [7])], 0, 0⟩)
    ∧ (list_documents_in_collection (pureServer ([] : List Nat) 100) 1 (fun _ offs => offs) 0
        [("collection:x", [7])] "x" true true
      = ⟨some (.ok []), updateC [("collection:x", [7])] ("collection:" ++ "x") [], 1, 1⟩) :=
  ⟨(list_documents_in_collection_spec (pureServer ([] : List Nat) 100) 1 (fun _ offs => offs) 0
        [("collection:x", [7])] "x" true false).1 [7] rfl rfl rfl,
    (list_documents_in_collection_spec (pureServer ([] : List Nat) 100) 1 (fun _ offs => offs) 0
        [("collection:x", [7])] "x" true true).2 [] 1 (Or.inl rfl) rfl⟩

/-- C4.  A fatal failure of any single page fetch the fetcher reaches (page
index `j ≤ len/limit`) makes the whole `fetch_all_concurrent` call fail,
and after a failed fetch neither `list_documents_in_collection` nor
`list_collections` invokes `save_cache`: the persisted cache is unchanged,
so a partially-fetched list is never persisted. -/
theorem fetch_failure_not_persisted (ds : List α) (workers : Nat)
    (sched : Nat → List Nat → List Nat) (hw : 1 ≤ workers)
    (hs : ∀ r offs, (sched r offs).Perm offs)
    (j : Nat) (hjq : j ≤ ds.length / API_MAX_LIMIT) :
    fetch_all_concurrent (faultyServer ds API_MAX_LIMIT j) API_MAX_LIMIT workers sched
        ((ds.length / API_MAX_LIMIT + workers - 1) / workers) = some (.error ())
    ∧ (∀ (cache : CacheMap α) (cid : String) (use_cache refresh_cache : Bool),
        (list_documents_in_collection (faultyServer ds API_MAX_LIMIT j) workers sched
            ((ds.length / API_MAX_LIMIT + workers - 1) / workers)
            cache cid use_cache refresh_cache).cacheAfter = cache
        ∧ (list_documents_in_collection (faultyServer ds API_MAX_LIMIT j) workers sched
            ((ds.length / API_MAX_LIMIT + workers - 1) / workers)
            cache cid use_cache refresh_cache).saveCalls = 0)
    ∧ (∀ (cache : CacheMap α) (use_cache refresh_cache : Bool),
        (list_collections (faultyServer ds API_MAX_LIMIT j) workers sched
            ((ds.length / API_MAX_LIMIT + workers - 1) / workers)
            cache use_cache refresh_cache).cacheAfter = cache
        ∧ (list_collections (faultyServer ds API_MAX_LIMIT j) workers sched
            ((ds.length / API_MAX_LIMIT + workers - 1) / workers)
            cache use_cache refresh_cache).saveCalls = 0) := by
  have hferr := fetch_all_concurrent_faulty ds API_MAX_LIMIT workers sched
    (by norm_num [API_MAX_LIMIT]) hw hs j (by rwa [min_self])
  rw [min_self] at hferr
  refine ⟨hferr, ?_, ?_⟩
  · intro cache cid use_cache refresh_cache
    cases use_cache with
    | false => constructor <;> simp [list_documents_in_collection, hferr]
    | true =>
      cases refresh_cache with
      | true => constructor <;> simp [list_documents_in_collection, hferr]
      | false =>
        cases hfast : lookupC cache ("collection:" ++ cid) <;>
          (constructor <;> simp [list_documents_in_collection, hfast, hferr])
  · intro cache use_cache refresh_cache
    cases use_cache with
    | false => constructor <;> simp [list_collections, hferr]
    | true =>
      cases refresh_cache with
      | true => constructor <;> simp [list_collections, hferr]
      | false =>
        cases hfast : lookupC cache "collections" <;>
          (constructor <;> simp [list_collections, hfast, hferr])

theorem fetch_failure_not_persisted_witness :
    fetch_all_concurrent (faultyServer [5] API_MAX_LIMIT 0) API_MAX_LIMIT 1 (fun _ offs => offs)
        (([5].length / API_MAX_LIMIT + 1 - 1) / 1) = some (.error ())
    ∧ (list_documents_in_collection (faultyServer [5] API_MAX_LIMIT 0) 1 (fun _ offs => offs)
        (([5].length / API_MAX_LIMIT + 1 - 1) / 1) [("collection:x", [7])] "x" true
        true).cacheAfter = [("collection:x", [7])]
    ∧ (list_collections (faultyServer [5] API_MAX_LIMIT 0) 1 (fun _ offs => offs)
        (([5].length / API_MAX_LIMIT + 1 - 1) / 1) [("collections", [7])] true
        true).saveCalls = 0 :=
  ⟨(fetch_failure_not_persisted [5] 1 (fun _ offs => offs) (by norm_num)
      (fun _ offs => List.Perm.refl offs) 0 (by norm_num)).1,
    ((fetch_failure_not_persisted [5] 1 (fun _ offs => offs) (by norm_num)
      (fun _ offs => List.Perm.refl offs) 0 (by norm_num)).2.1
        [("collection:x", [7])] "x" true true).1,
    ((fetch_failure_not_persisted [5] 1 (fun _ offs => offs) (by norm_num)
      (fun _ offs => List.Perm.refl offs) 0 (by norm_num)).2.2
        [("collections", [7])] true true).2⟩

/-- The observable state of the mirror file for `load_cache`
(`core/cache.py` lines 12-18): the file may be absent
(`CACHE_PATH.exists()` false), present but unreadable (`read_text` raises),
or present with some text. -/
inductive MirrorFile where
  | absent
  | unreadable
  | content (text : String)

/-- `load_cache` (`core/cache.py` lines 12-18).  The `try/except` around
`read_text` + `json.loads` is modelled by making both fallible steps
explicit: `parse` stands for `json.loads`, returning `.error` on text that
is not valid JSON.  The function is total — every failure path yields the
empty mapping, no exception escapes. -/
def load_cache (parse : String → Except Unit (CacheMap α)) : MirrorFile → CacheMap α
  | .absent => []
  | .unreadable => []
  | .content s =>
    match parse s with
    | .ok cache => cache
    | .error _ => []

/-- C9.  For every state of the mirror file — absent, unreadable, or holding
text that does not parse as JSON — `load_cache` returns the empty mapping;
being a total function of the file state, it never propagates an error. -/
theorem load_cache_resilient (parse : String → Except Unit (CacheMap α)) (f : MirrorFile)
    (h : f = .absent ∨ f = .unreadable ∨ ∃ s, f = .content s ∧ parse s = .error ()) :
    load_cache parse f = [] := by
  rcases h with rfl | rfl | ⟨s, rfl, hs⟩
  · rfl
  · rfl
  · simp [load_cache, hs]

theorem load_cache_resilient_witness :
    load_cache (fun _ => (.error () : Except Unit (CacheMap Nat)))
      (.content "not valid json") = [] :=
  load_cache_resilient (fun _ => .error ()) (.content "not valid json")
    (Or.inr (Or.inr ⟨"not valid json", rfl, rfl⟩))

/-- A document record as the core manipulates it: the three fields the code
reads (`d.get("id")`, `d.get("parentDocumentId")`, `d.get("title")`, each
possibly absent/null → `none`) plus an opaque payload standing for all
other fields of the raw API mapping. -/
structure Doc (α : Type) where
  id : Option String
  parentDocumentId : Option String
  title : Option String
  payload : α
deriving DecidableEq, Repr

/-- Ids of the direct children of `cur` in the cached list:
`[d.get("id") for d in docs if d.get("parentDocumentId") == cur]`. -/
def childIds (docs : List (Doc α)) (cur : Option String) : List (Option String) :=
  (docs.filter (fun d => d.parentDocumentId == cur)).map (fun d => d.id)

/-- `to_remove.add(cur)`: Python set insertion. -/
def insertId (x : Option String) (acc : List (Option String)) : List (Option String) :=
  if x ∈ acc then acc else x :: acc

/-- The reachability walk of `refresh_document_branch`
(`core/cache.py` lines 116-121): pop the top of the stack (Python pops the
list's end; the stack is modelled top-at-head, so `stack.extend(children)`
pushes the children reversed), add it to `to_remove`, push its children.
There is no visited-check before re-expanding a popped id, so the loop can
revisit ids forever on cyclic parent references; `none` = fuel ran out. -/
def branchWalk (docs : List (Doc α)) :
    List (Option String) → List (Option String) → Nat → Option (List (Option String))
  | [], acc, _ => some acc
  | _ :: _, _, 0 => none
  | cur :: rest, acc, fuel + 1 =>
    branchWalk docs ((childIds docs cur).reverse ++ rest) (insertId cur acc) fuel

/-- The `to_remove` set computed by `refresh_document_branch` for `parent`:
seeded with `parent`'s direct children. -/
def branchRemoveSet (docs : List (Doc α)) (parent : Option String) (fuel : Nat) :
    Option (List (Option String)) :=
  branchWalk docs (childIds docs parent).reverse [] fuel

/-- `refresh_document_branch` (`core/cache.py` lines 83-128).  The fresh
fetch of `parent`'s children is passed in as `new_children` (the fetch
itself is specified by `fetch_all_concurrent`).  Drop every cached record
whose id is in the computed removal set, append the fresh children, store
the merged list under the same key and return it with the saved cache. -/
def refresh_document_branch (cache : CacheMap (Doc α)) (collection_id : String)
    (parent : Option String) (new_children : List (Doc α)) (fuel : Nat) :
    Option (CacheMap (Doc α) × List (Doc α)) :=
  let coll_key := "collection:" ++ collection_id
  let docs := (lookupC cache coll_key).getD []
  match branchRemoveSet docs parent fuel with
  | none => none
  | some to_remove =>
    let docs2 := docs.filter (fun d => !(to_remove.contains d.id)) ++ new_children
    some (updateC cache coll_key docs2, docs2)

/-- The ids `refresh_document_branch` is meant to discard, per the spec:
`parent`'s previously-cached direct children and, transitively, all of
their previously-cached descendants. -/
inductive ReachableFrom (docs : List (Doc α)) (parent : Option String) :
    Option String → Prop
  | child : ∀ {x}, x ∈ childIds docs parent → ReachableFrom docs parent x
  | step : ∀ {c x}, ReachableFrom docs parent c → x ∈ childIds docs c →
      ReachableFrom docs parent x

theorem branchWalk_sound (docs : List (Doc α)) (parent : Option String) :
    ∀ (fuel : Nat) (stack acc S : List (Option String)),
      (∀ x ∈ stack, ReachableFrom docs parent x) →
      (∀ x ∈ acc, ReachableFrom docs parent x) →
      branchWalk docs stack acc fuel = some S →
      ∀ x ∈ S, ReachableFrom docs parent x := by
  intro fuel
  induction fuel with
  | zero =>
    intro stack acc S hstack hacc hwalk
    cases stack with
    | nil => cases hwalk; exact hacc
    | cons cur rest => cases hwalk
  | succ f ih =>
    intro stack acc S hstack hacc hwalk
    cases stack with
    | nil => cases hwalk; exact hacc
    | cons cur rest =>
      refine ih _ _ _ ?_ ?_ hwalk
      · intro x hx
        rcases List.mem_append.mp hx with hx' | hx'
        · exact .step (hstack cur (List.mem_cons_self cur rest))
            (List.mem_reverse.mp hx')
        · exact hstack x (List.mem_cons_of_mem cur hx')
      · intro x hx
        unfold insertId at hx
        by_cases hmem : cur ∈ acc
        · rw [if_pos hmem] at hx
          exact hacc x hx
        · rw [if_neg hmem] at hx
          rcases List.mem_cons.mp hx with rfl | hx'
          · exact hstack x (List.mem_cons_self x rest)
          · exact hacc x hx'

theorem branchWalk_acc_mem (docs : List (Doc α)) :
    ∀ (fuel : Nat) (stack acc S : List (Option String)),
      branchWalk docs stack acc fuel = some S →
      ∀ x ∈ acc, x ∈ S := by
  intro fuel
  induction fuel with
  | zero =>
    intro stack acc S hwalk
    cases stack with
    | nil => cases hwalk; exact fun x hx => hx
    | cons cur rest => cases hwalk
  | succ f ih =>
    intro stack acc S hwalk
    cases stack with
    | nil => cases hwalk; exact fun x hx => hx
    | cons cur rest =>
      intro x hx
      refine ih _ _ _ hwalk x ?_
      unfold insertId
      by_cases hmem : cur ∈ acc
      · rwa [if_pos hmem]
      · rw [if_neg hmem]
        exact List.mem_cons_of_mem cur hx

theorem branchWalk_stack_mem (docs : List (Doc α)) :
    ∀ (fuel : Nat) (stack acc S : List (Option String)),
      branchWalk docs stack acc fuel = some S →
      ∀ x ∈ stack, x ∈ S := by
  intro fuel
  induction fuel with
  | zero =>
    intro stack acc S hwalk x hx
    cases stack with
    | nil => cases hx
    | cons cur rest => cases hwalk
  | succ f ih =>
    intro stack acc S hwalk x hx
    cases stack with
    | nil => cases hx
    | cons cur rest =>
      rcases List.mem_cons.mp hx with rfl | hx'
      · have hwalk' : branchWalk docs ((childIds docs x).reverse ++ rest) (insertId x acc) f
            = some S := hwalk
        refine branchWalk_acc_mem docs f _ _ _ hwalk' x ?_
        unfold insertId
        by_cases hmem : x ∈ acc
        · rwa [if_pos hmem]
        · rw [if_neg hmem]
          exact List.mem_cons_self x acc
      · exact ih _ _ _ hwalk x (List.mem_append.mpr (Or.inr hx'))

theorem branchWalk_closed (docs : List (Doc α)) :
    ∀ (fuel : Nat) (stack acc S : List (Option String)),
      (∀ c ∈ acc, ∀ y ∈ childIds docs c, y ∈ stack ∨ y ∈ acc) →
      branchWalk docs stack acc fuel = some S →
      ∀ c ∈ S, ∀ y ∈ childIds docs c, y ∈ S := by
  intro fuel
  induction fuel with
  | zero =>
    intro stack acc S hacc hwalk
    cases stack with
    | nil =>
      cases hwalk
      intro c hc y hy
      rcases hacc c hc y hy with h | h
      · cases h
      · exact h
    | cons cur rest => cases hwalk
  | succ f ih =>
    intro stack acc S hacc hwalk
    cases stack with
    | nil =>
      cases hwalk
      intro c hc y hy
      rcases hacc c hc y hy with h | h
      · cases h
      · exact h
    | cons cur rest =>
      refine ih _ _ _ ?_ hwalk
      intro c hc y hy
      unfold insertId at hc
      by_cases hmem : cur ∈ acc
      · rw [if_pos hmem] at hc
        rcases hacc c hc y hy with h | h
        · rcases List.mem_cons.mp h with rfl | h'
          · right
            rw [insertId, if_pos hmem]
            exact hmem
          · left
            exact List.mem_append.mpr (Or.inr h')
        · right
          rw [insertId, if_pos hmem]
          exact h
      · rw [if_neg hmem] at hc
        rcases List.mem_cons.mp hc with rfl | hc'
        · left
          exact List.mem_append.mpr (Or.inl (List.mem_reverse.mpr hy))
        · rcases hacc c hc' y hy with h | h
          · rcases List.mem_cons.mp h with rfl | h'
            · right
              rw [insertId, if_neg hmem]
              exact List.mem_cons_self y acc
            · left
              exact List.mem_append.mpr (Or.inr h')
          · right
            rw [insertId, if_neg hmem]
            exact List.mem_cons_of_mem cur h

/-- When the walk terminates, the computed `to_remove` set is exactly the
set of ids reachable from `parent` through the stale adjacency. -/
theorem branchRemoveSet_spec (docs : List (Doc α)) (parent : Option String)
    (fuel : Nat) (S : List (Option String))
    (h : branchRemoveSet docs parent fuel = some S) :
    ∀ x, x ∈ S ↔ ReachableFrom docs parent x := by
  intro x
  constructor
  · exact fun hx => branchWalk_sound docs parent fuel _ [] S
      (fun y hy => .child (List.mem_reverse.mp hy)) (fun y hy => by cases hy) h x hx
  · intro hreach
    induction hreach with
    | child hchild =>
      exact branchWalk_stack_mem docs fuel _ [] S h _
        (List.mem_reverse.mpr hchild)
    | step hc hstep ihc =>
      exact branchWalk_closed docs fuel _ [] S (fun c hc _ _ => by cases hc) h _ ihc _ hstep

/-- C2 (amended).  Whenever the reachability walk over the stale adjacency
terminates (in particular, on every cached list whose parent references are
acyclic), `refresh_document_branch` removes from the cached list exactly the
records whose id is reachable from `parentId` — the previously-cached direct
children and, transitively, their previously-cached descendants — leaves
every other record unchanged and in place, appends the freshly fetched
children, persists the merged list under the same key (other keys
untouched), and returns the entire updated list. -/
theorem refresh_document_branch_spec (cache : CacheMap (Doc α)) (collection_id : String)
    (parent : Option String) (new_children : List (Doc α)) (fuel : Nat)
    (docs : List (Doc α)) (S : List (Option String))
    (hdocs : (lookupC cache ("collection:" ++ collection_id)).getD [] = docs)
    (hS : branchRemoveSet docs parent fuel = some S) :
    refresh_document_branch cache collection_id parent new_children fuel
      = some (updateC cache ("collection:" ++ collection_id)
            (docs.filter (fun d => !(S.contains d.id)) ++ new_children),
          docs.filter (fun d => !(S.contains d.id)) ++ new_children)
    ∧ (∀ x, x ∈ S ↔ ReachableFrom docs parent x)
    ∧ lookupC (updateC cache ("collection:" ++ collection_id)
          (docs.filter (fun d => !(S.contains d.id)) ++ new_children))
        ("collection:" ++ collection_id)
      = some (docs.filter (fun d => !(S.contains d.id)) ++ new_children)
    ∧ (∀ k, k ≠ "collection:" ++ collection_id →
        lookupC (updateC cache ("collection:" ++ collection_id)
            (docs.filter (fun d => !(S.contains d.id)) ++ new_children)) k
          = lookupC cache k) := by
  refine ⟨?_, branchRemoveSet_spec docs parent fuel S hS, lookupC_updateC_self _ _ _,
    fun k hk => lookupC_updateC_other _ _ _ k hk⟩
  simp only [refresh_document_branch, hdocs, hS]

def docRoot : Doc Nat := ⟨some "r", none, some "root", 0⟩

def docA : Doc Nat := ⟨some "a", some "r", some "A", 0⟩

def docA1 : Doc Nat := ⟨some "a1", some "a", some "A1", 0⟩

def docA2 : Doc Nat := ⟨some "a2", some "a", some "A2", 0⟩

def docB : Doc Nat := ⟨some "b", some "r", some "B", 0⟩

def docA3 : Doc Nat := ⟨some "a3", some "a", some "A3", 0⟩

def sampleCache : CacheMap (Doc Nat) :=
  [("collection:c", [docRoot, docA, docA1, docA2, docB])]

theorem refresh_document_branch_spec_witness :
    refresh_document_branch sampleCache "c" (some "a") [docA3] 3
      = some (updateC sampleCache ("collection:" ++ "c")
            ([docRoot, docA, docA1, docA2, docB].filter
                (fun d => !([some "a1", some "a2"].contains d.id)) ++ [docA3]),
          [docRoot, docA, docA1, docA2, docB].filter
              (fun d => !([some "a1", some "a2"].contains d.id)) ++ [docA3])
    ∧ lookupC (updateC sampleCache ("collection:" ++ "c")
          ([docRoot, docA, docA1, docA2, docB].filter
              (fun d => !([some "a1", some "a2"].contains d.id)) ++ [docA3]))
        ("collection:" ++ "c")
      = some ([docRoot, docA, docA1, docA2, docB].filter
            (fun d => !([some "a1", some "a2"].contains d.id)) ++ [docA3]) :=
  ⟨(refresh_document_branch_spec sampleCache "c" (some "a") [docA3] 3
      [docRoot, docA, docA1, docA2, docB] [some "a1", some "a2"] rfl rfl).1,
    (refresh_document_branch_spec sampleCache "c" (some "a") [docA3] 3
      [docRoot, docA, docA1, docA2, docB] [some "a1", some "a2"] rfl rfl).2.2.1⟩

theorem mem_insertId_self (x : Option String) (acc : List (Option String)) :
    x ∈ insertId x acc := by
  unfold insertId
  by_cases h : x ∈ acc
  · rwa [if_pos h]
  · rw [if_neg h]
    exact List.mem_cons_self x acc

theorem mem_insertId_of_mem (x : Option String) {y : Option String}
    {acc : List (Option String)} (h : y ∈ acc) : y ∈ insertId x acc := by
  unfold insertId
  by_cases hx : x ∈ acc
  · rwa [if_pos hx]
  · rw [if_neg hx]
    exact List.mem_cons_of_mem x h

/-- Two cached documents whose parent references form a cycle. -/
def cycDocX : Doc Nat := ⟨some "x", some "y", none, 0⟩

def cycDocY : Doc Nat := ⟨some "y", some "x", none, 0⟩

def cycCache : CacheMap (Doc Nat) := [("collection:c", [cycDocX, cycDocY])]

/-- The Python `while stack` walk never terminates on this input: in the
fuel model, `refresh_document_branch` returns `none` for every fuel. -/
def refreshDiverges (cache : CacheMap (Doc α)) (collection_id : String)
    (parent : Option String) (new_children : List (Doc α)) : Prop :=
  ∀ fuel, refresh_document_branch cache collection_id parent new_children fuel = none

theorem cycWalk_aux : ∀ (fuel : Nat) (acc : List (Option String)),
    some "x" ∈ acc → some "y" ∈ acc →
    branchWalk [cycDocX, cycDocY] [some "y"] acc fuel = none := by
  intro fuel
  induction fuel using Nat.strong_induction_on with
  | _ fuel ih =>
    match fuel with
    | 0 => intro acc _ _; rfl
    | 1 => intro acc _ _; rfl
    | (f + 2) =>
      intro acc hx hy
      have step : branchWalk [cycDocX, cycDocY] [some "y"] acc (f + 2)
          = branchWalk [cycDocX, cycDocY] [some "y"]
              (insertId (some "x") (insertId (some "y") acc)) f := rfl
      rw [step]
      exact ih f (by omega) _ (mem_insertId_self _ _)
        (mem_insertId_of_mem _ (mem_insertId_of_mem _ hy))

theorem cycRemoveSet_none :
    ∀ fuel : Nat, branchRemoveSet [cycDocX, cycDocY] (some "x") fuel = none := by
  intro fuel
  match fuel with
  | 0 => rfl
  | 1 => rfl
  | (f + 2) =>
    have step : branchRemoveSet [cycDocX, cycDocY] (some "x") (f + 2)
        = branchWalk [cycDocX, cycDocY] [some "y"]
            (insertId (some "x") (insertId (some "y") [])) f := rfl
    rw [step]
    exact cycWalk_aux f _ (mem_insertId_self _ _)
      (mem_insertId_of_mem _ (mem_insertId_self _ _))

/-- C2 counterexample: on a cached list with a parent-reference cycle
reachable from `parentId`'s children, the reachability walk of
`refresh_document_branch` re-expands already-removed ids forever (there is
no visited-check before `stack.extend`), so the function never removes,
appends, persists or returns anything — the claim's universally quantified
statement fails on this cached list. -/
theorem refresh_document_branch_cycle_cex :
    refreshDiverges cycCache "c" (some "x") [] := by
  intro fuel
  simp only [refresh_document_branch]
  rw [show (lookupC cycCache ("collection:" ++ "c")).getD [] = [cycDocX, cycDocY] from rfl,
    cycRemoveSet_none fuel]

/-- Python truthiness of an optional string: `not pid` is true for both
`None` and the empty string. -/
def pyFalsy : Option String → Bool
  | none => true
  | some s => s == ""

/-- Root detection of `cmd_docs_tree` (`commands/documents.py` lines
302-306): `not d.get("parentDocumentId") or d.get("parentDocumentId") not
in by_id`, where `by_id`'s keys are the ids of the same list. -/
def computeRoots (docs : List (Doc α)) : List (Doc α) :=
  docs.filter (fun d =>
    pyFalsy d.parentDocumentId
      || !((docs.map (fun x => x.id)).contains d.parentDocumentId))

/-- Root detection as the spec words it: parent null/absent, or referring
to an id not present in the same list (no empty-string clause). -/
def computeRootsSpec (docs : List (Doc α)) : List (Doc α) :=
  docs.filter (fun d =>
    (d.parentDocumentId == none)
      || !((docs.map (fun x => x.id)).contains d.parentDocumentId))

/-- C6 counterexample: a document whose `parentDocumentId` is the empty
string, while the empty string is the id of another document in the list:
the code's `not pid` truthiness test classifies it as a root although its
parent id is present in the list — the claimed iff fails. -/
theorem computeRoots_cex :
    computeRoots [(⟨some "", none, none, 0⟩ : Doc Nat), ⟨some "a", some "", none, 0⟩]
      ≠ computeRootsSpec [(⟨some "", none, none, 0⟩ : Doc Nat), ⟨some "a", some "", none, 0⟩] := by
  decide

/-- C6 (amended).  A document is classified as a root iff its
`parentDocumentId` is null/absent **or the empty string** (Python
falsiness), or refers to an id not present in the same list; in particular
a document whose parent id is absent from the list is a root. -/
theorem computeRoots_mem (docs : List (Doc α)) (d : Doc α) :
    d ∈ computeRoots docs
      ↔ d ∈ docs ∧ (d.parentDocumentId = none ∨ d.parentDocumentId = some ""
          ∨ d.parentDocumentId ∉ docs.map (fun x => x.id)) := by
  rw [computeRoots, List.mem_filter]
  refine and_congr_right fun _ => ?_
  cases hp : d.parentDocumentId with
  | none => simp [pyFalsy]
  | some s =>
    by_cases hs : s = ""
    · subst hs
      simp [pyFalsy]
    · simp [pyFalsy, hs]

/-- The Python sort key `(x.get("title") or "").lower()` of
`cmd_docs_tree`, modelled on the title's character list: untitled (null or
missing title — also the empty title, which Python's `or` likewise maps to
`""`) yields the empty key. -/
def titleKey (d : Doc α) : List Char :=
  (d.title.getD "").data.map Char.toLower

/-- Lexicographic code-point comparison of two keys, as Python compares
strings. -/
def charListLe : List Char → List Char → Bool
  | [], _ => true
  | _ :: _, [] => false
  | a :: as, b :: bs =>
    if a.toNat = b.toNat then charListLe as bs else decide (a.toNat < b.toNat)

/-- Insert into a sorted list, after every element that compares
less-or-equal — the insertion step of a stable sort. -/
def insertSorted (le : γ → γ → Bool) (x : γ) : List γ → List γ
  | [] => [x]
  | y :: ys => if le y x then y :: insertSorted le x ys else x :: y :: ys

/-- Python's `list.sort` is a stable comparison sort; any stable sort with
the same key yields the same output, so it is modelled as a stable
insertion sort. -/
def sortBy (le : γ → γ → Bool) (l : List γ) : List γ :=
  l.foldr (insertSorted le) []

/-- `children[k].sort(key=...)`: the sibling bucket of `pid`, sorted. -/
def childrenSorted (docs : List (Doc α)) (pid : Option String) : List (Doc α) :=
  sortBy (fun a b => charListLe (titleKey a) (titleKey b))
    (docs.filter (fun d => d.parentDocumentId == pid))

/-- `roots.sort(key=...)`: the root list, sorted with the same key. -/
def rootsSorted (docs : List (Doc α)) : List (Doc α) :=
  sortBy (fun a b => charListLe (titleKey a) (titleKey b)) (computeRoots docs)

/-- The sort key as the spec words it: untitled documents sort under the
literal placeholder label `"(untitled)"` (the label the renderer displays). -/
def titleKeySpec (d : Doc α) : List Char :=
  (d.title.getD "(untitled)").data.map Char.toLower

def rootsSortedSpec (docs : List (Doc α)) : List (Doc α) :=
  sortBy (fun a b => charListLe (titleKeySpec a) (titleKeySpec b)) (computeRoots docs)

/-- C7 counterexample: with a root titled `"!"` and an untitled root, the
code sorts the untitled document first (its key is the empty string), while
sorting under the placeholder label `"(untitled)"` would put `"!"` first
(`'!' < '('`) — the sort key of untitled documents is the empty string, not
a placeholder label. -/
theorem docs_sort_cex :
    rootsSorted [(⟨some "1", none, some "!", 0⟩ : Doc Nat), ⟨some "2", none, none, 0⟩]
      ≠ rootsSortedSpec [(⟨some "1", none, some "!", 0⟩ : Doc Nat), ⟨some "2", none, none, 0⟩] := by
  decide

theorem charListLe_trans : ∀ a b c : List Char,
    charListLe a b = true → charListLe b c = true → charListLe a c = true := by
  intro a
  induction a with
  | nil => intro b c _ _; rfl
  | cons x xs ih =>
    intro b c hab hbc
    cases b with
    | nil => simp [charListLe] at hab
    | cons y ys =>
      cases c with
      | nil => simp [charListLe] at hbc
      | cons z zs =>
        simp only [charListLe] at hab hbc ⊢
        by_cases hxy : x.toNat = y.toNat
        · rw [if_pos hxy] at hab
          by_cases hyz : y.toNat = z.toNat
          · rw [if_pos hyz] at hbc
            rw [if_pos (hxy.trans hyz)]
            exact ih ys zs hab hbc
          · rw [if_neg hyz, decide_eq_true_eq] at hbc
            rw [if_neg (by omega), decide_eq_true_eq]
            omega
        · rw [if_neg hxy, decide_eq_true_eq] at hab
          by_cases hyz : y.toNat = z.toNat
          · rw [if_neg (by omega), decide_eq_true_eq]
            omega
          · rw [if_neg hyz, decide_eq_true_eq] at hbc
            rw [if_neg (by omega), decide_eq_true_eq]
            omega

theorem charListLe_total : ∀ a b : List Char,
    (charListLe a b || charListLe b a) = true := by
  intro a
  induction a with
  | nil => intro b; rfl
  | cons x xs ih =>
    intro b
    cases b with
    | nil => rfl
    | cons y ys =>
      simp only [charListLe]
      by_cases hxy : x.toNat = y.toNat
      · rw [if_pos hxy, if_pos hxy.symm]
        exact ih ys
      · rw [if_neg hxy, if_neg (by omega)]
        simp only [Bool.or_eq_true, decide_eq_true_eq]
        omega

theorem insertSorted_perm (le : γ → γ → Bool) (x : γ) (l : List γ) :
    (insertSorted le x l).Perm (x :: l) := by
  induction l with
  | nil => exact List.Perm.refl _
  | cons y ys ih =>
    unfold insertSorted
    by_cases h : le y x = true
    · rw [if_pos h]
      exact (List.Perm.cons y ih).trans (List.Perm.swap x y ys)
    · rw [if_neg h]

theorem sortBy_perm (le : γ → γ → Bool) (l : List γ) : (sortBy le l).Perm l := by
  induction l with
  | nil => exact List.Perm.refl _
  | cons x xs ih =>
    exact (insertSorted_perm le x (sortBy le xs)).trans (List.Perm.cons x ih)

theorem insertSorted_sorted (le : γ → γ → Bool)
    (htrans : ∀ a b c, le a b = true → le b c = true → le a c = true)
    (htot : ∀ a b, (le a b || le b a) = true)
    (x : γ) (l : List γ) (hl : l.Pairwise (fun a b => le a b = true)) :
    (insertSorted le x l).Pairwise (fun a b => le a b = true) := by
  induction l with
  | nil => simp [insertSorted]
  | cons y ys ih =>
    rcases List.pairwise_cons.mp hl with ⟨hy, hys⟩
    unfold insertSorted
    by_cases h : le y x = true
    · rw [if_pos h]
      refine List.pairwise_cons.mpr ⟨?_, ih hys⟩
      intro b hb
      rcases List.mem_cons.mp ((insertSorted_perm le x ys).mem_iff.mp hb) with rfl | hbys
      · exact h
      · exact hy b hbys
    · rw [if_neg h]
      have hxy : le x y = true := by
        have := htot y x
        simp only [Bool.or_eq_true] at this
        tauto
      refine List.pairwise_cons.mpr ⟨?_, hl⟩
      intro b hb
      rcases List.mem_cons.mp hb with rfl | hbys
      · exact hxy
      · exact htrans x y b hxy (hy b hbys)

theorem sortBy_sorted (le : γ → γ → Bool)
    (htrans : ∀ a b c, le a b = true → le b c = true → le a c = true)
    (htot : ∀ a b, (le a b || le b a) = true) (l : List γ) :
    (sortBy le l).Pairwise (fun a b => le a b = true) := by
  induction l with
  | nil => simp [sortBy]
  | cons x xs ih => exact insertSorted_sorted le htrans htot x (sortBy le xs) ih

/-- C7 (amended).  Sibling buckets and the root list are sorted
case-insensitively and lexicographically by title — each output is a
permutation of its bucket, pairwise ordered by the case-folded title key —
with untitled documents (null or missing title) sorting under the **empty
string** key (first), not under a placeholder label; the placeholder
`"(untitled)"` is display-only. -/
theorem docs_tree_sorted (docs : List (Doc α)) (pid : Option String) :
    ((childrenSorted docs pid).Perm (docs.filter (fun d => d.parentDocumentId == pid))
      ∧ (childrenSorted docs pid).Pairwise
          (fun a b => charListLe (titleKey a) (titleKey b) = true))
    ∧ ((rootsSorted docs).Perm (computeRoots docs)
      ∧ (rootsSorted docs).Pairwise
          (fun a b => charListLe (titleKey a) (titleKey b) = true)) :=
  ⟨⟨sortBy_perm _ _,
      sortBy_sorted _ (fun a b c => charListLe_trans (titleKey a) (titleKey b) (titleKey c))
        (fun a b => charListLe_total (titleKey a) (titleKey b)) _⟩,
    ⟨sortBy_perm _ _,
      sortBy_sorted _ (fun a b c => charListLe_trans (titleKey a) (titleKey b) (titleKey c))
        (fun a b => charListLe_total (titleKey a) (titleKey b)) _⟩⟩

/-- A JSON field value as the pagination code distinguishes them: null, a
list of records, or any other JSON value together with its Python
truthiness. -/
inductive JField (α : Type) where
  | nullv
  | list (xs : List α)
  | other (truthy : Bool)
deriving DecidableEq, Repr

/-- The parsed body `http_json` hands to `_post_page`: either not a JSON
object, or an object with its fields. -/
inductive HttpJson (α : Type) where
  | nonDict
  | dict (fields : List (String × JField α))
deriving DecidableEq, Repr

/-- `data.get(k)`: `none` when the key is absent. -/
def getField (fields : List (String × JField α)) (k : String) : Option (JField α) :=
  (fields.find? (fun kv => kv.1 == k)).map (fun kv => kv.2)

/-- `k in data`. -/
def hasKey (fields : List (String × JField α)) (k : String) : Bool :=
  (fields.find? (fun kv => kv.1 == k)).isSome

/-- `data[k] = v`: dictionary assignment. -/
def setField : List (String × JField α) → String → JField α → List (String × JField α)
  | [], k, v => [(k, v)]
  | kv :: rest, k, v => if kv.1 == k then (k, v) :: rest else kv :: setField rest k v

/-- Python truthiness of a field value; a missing key (`data.get` → `None`)
behaves like null. -/
def fieldTruthy : JField α → Bool
  | .nullv => false
  | .list xs => !xs.isEmpty
  | .other t => t

/-- Python's `a or b`. -/
def pyOr (a b : JField α) : JField α :=
  if fieldTruthy a then a else b

/-- The response-shape normalization of `_post_page` (`core/utils.py` lines
59-63; the URL assembly and the request itself are outside this model): a
non-mapping body becomes `{"data": [], "pagination": {"total": 0}}`; a
mapping without a `data` key gets
`data["data"] = data.get("results") or data.get("rows") or []`.  Total — no
body shape raises. -/
def post_page (body : HttpJson α) : List (String × JField α) :=
  match body with
  | .nonDict => [("data", .list []), ("pagination", .other true)]
  | .dict fields =>
    if hasKey fields "data" then fields
    else
      setField fields "data"
        (pyOr ((getField fields "results").getD .nullv)
          (pyOr ((getField fields "rows").getD .nullv) (.list [])))

theorem getField_setField_self (fields : List (String × JField α)) (k : String)
    (v : JField α) : getField (setField fields k v) k = some v := by
  induction fields with
  | nil => simp [getField, setField, List.find?]
  | cons kv rest ih =>
    by_cases h : kv.1 == k
    · simp [getField, setField, h, List.find?]
    · simp only [setField, h, if_false, Bool.false_eq_true]
      simpa [getField, List.find?, h] using ih

theorem getField_eq_none_of_not_hasKey (fields : List (String × JField α)) (k : String)
    (h : hasKey fields k = false) : getField fields k = none := by
  unfold hasKey at h
  unfold getField
  cases hf : (fields.find? (fun kv => kv.1 == k)) with
  | none => rfl
  | some kv => rw [hf] at h; cases h

/-- C8.  A page response whose body is not a JSON object, or is an object
with none of the keys `data`, `results`, `rows`, is normalized by
`_post_page` to a zero-length page under `data`; being a total function of
the body, it raises nothing — such a response is never an error. -/
theorem post_page_malformed_empty (body : HttpJson α)
    (h : body = .nonDict
      ∨ ∃ fields, body = .dict fields ∧ hasKey fields "data" = false
          ∧ hasKey fields "results" = false ∧ hasKey fields "rows" = false) :
    getField (post_page body) "data" = some (.list []) := by
  rcases h with rfl | ⟨fields, rfl, hdata, hres, hrows⟩
  · rfl
  · simp only [post_page, hdata, Bool.false_eq_true, if_false]
    rw [getField_eq_none_of_not_hasKey fields "results" hres,
      getField_eq_none_of_not_hasKey fields "rows" hrows]
    exact getField_setField_self fields "data" _

theorem post_page_malformed_empty_witness :
    getField (post_page (.dict [("unexpected", (.other true : JField Nat))])) "data"
      = some (.list []) :=
  post_page_malformed_empty (.dict [("unexpected", .other true)])
    (Or.inr ⟨[("unexpected", .other true)], rfl, rfl, rfl, rfl⟩)

/-- `by_id = {d.get("id"): d for d in docs}` followed by `by_id.get(pid)`:
on duplicate ids the last document wins. -/
def byIdGet (docs : List (Doc α)) (pid : String) : Option (Doc α) :=
  docs.reverse.find? (fun d => d.id == some pid)

/-- `doc.get("title") or "(untitled)"`: Python `or` replaces both a null
and an empty title with the placeholder. -/
def titleOr (d : Doc α) : String :=
  match d.title with
  | none => "(untitled)"
  | some t => if t = "" then "(untitled)" else t

/-- The `while True` loop of `_build_breadcrumbs` (`core/interactive.py`
lines 36-52): follow parent ids upward, stopping at a falsy parent id
(null or empty), an already-seen parent id (the cycle guard), or a parent
absent from `by_id`; prepend each parent's title.  (Python adds `pid` to
`seen` just before the `by_id` lookup; since a failed lookup breaks, adding
it only on the continuing branch is observationally identical.)  `none` =
fuel ran out. -/
def breadcrumbGo (docs : List (Doc α)) :
    Doc α → List String → List String → Nat → Option (List String)
  | _, _, _, 0 => none
  | cur, parts, seen, fuel + 1 =>
    match cur.parentDocumentId with
    | none => some parts
    | some pid =>
      if pid = "" then some parts
      else if pid ∈ seen then some parts
      else
        match byIdGet docs pid with
        | none => some parts
        | some p => breadcrumbGo docs p (titleOr p :: parts) (pid :: seen) fuel

/-- `_build_breadcrumbs(doc, by_id)`: run the loop from `doc` with its own
title as the initial part, then `" / ".join(parts)`. -/
def build_breadcrumbs (docs : List (Doc α)) (doc : Doc α) (fuel : Nat) : Option String :=
  (breadcrumbGo docs doc [titleOr doc] [] fuel).map (String.intercalate " / ")

/-- Documents whose id exists and has not been seen yet: the loop's
termination measure. -/
def availIds (docs : List (Doc α)) (seen : List String) : Nat :=
  (docs.filter (fun d =>
    match d.id with
    | some i => decide (i ∉ seen)
    | none => false)).length

theorem length_filter_le_of_imp {l : List γ} {p q : γ → Bool}
    (himp : ∀ x ∈ l, q x = true → p x = true) :
    (l.filter q).length ≤ (l.filter p).length := by
  induction l with
  | nil => simp
  | cons x xs ih =>
    have ih' := ih (fun y hy => himp y (List.mem_cons_of_mem x hy))
    by_cases hq : q x = true
    · rw [List.filter_cons_of_pos hq,
        List.filter_cons_of_pos (himp x (List.mem_cons_self x xs) hq)]
      simpa using ih'
    · rw [List.filter_cons_of_neg (by simp [hq])]
      cases hp : p x
      · rw [List.filter_cons_of_neg (by simp [hp])]
        exact ih'
      · rw [List.filter_cons_of_pos (by simp [hp])]
        simp only [List.length_cons]
        omega

theorem length_filter_lt {l : List γ} {p q : γ → Bool}
    (himp : ∀ x ∈ l, q x = true → p x = true)
    {a : γ} (ha : a ∈ l) (hap : p a = true) (haq : q a = false) :
    (l.filter q).length < (l.filter p).length := by
  induction l with
  | nil => cases ha
  | cons x xs ih =>
    have himp' : ∀ y ∈ xs, q y = true → p y = true :=
      fun y hy => himp y (List.mem_cons_of_mem x hy)
    rcases List.mem_cons.mp ha with rfl | ha'
    · rw [List.filter_cons_of_neg (by simp [haq]), List.filter_cons_of_pos hap]
      simp only [List.length_cons]
      exact Nat.lt_succ_of_le (length_filter_le_of_imp himp')
    · by_cases hq : q x = true
      · rw [List.filter_cons_of_pos hq,
          List.filter_cons_of_pos (himp x (List.mem_cons_self x xs) hq)]
        simpa using ih himp' ha'
      · rw [List.filter_cons_of_neg (by simp [hq])]
        have hlt := ih himp' ha'
        cases hp : p x
        · rw [List.filter_cons_of_neg (by simp [hp])]
          exact hlt
        · rw [List.filter_cons_of_pos (by simp [hp])]
          simp only [List.length_cons]
          omega

theorem availIds_decrease (docs : List (Doc α)) {pid : String} {p : Doc α}
    (hfind : byIdGet docs pid = some p) {seen : List String} (hnot : pid ∉ seen) :
    availIds docs (pid :: seen) < availIds docs seen := by
  have hp := List.find?_some hfind
  have hpid : p.id = some pid := by simpa using hp
  have hmem : p ∈ docs := List.mem_reverse.mp (List.mem_of_find?_eq_some hfind)
  refine length_filter_lt ?_ hmem ?_ ?_
  · intro x _ hqx
    simp only at hqx ⊢
    cases hid : x.id with
    | none => simp only [hid] at hqx; cases hqx
    | some i =>
      simp only [hid, decide_eq_true_eq] at hqx ⊢
      intro hin
      exact hqx (List.mem_cons_of_mem pid hin)
  · simp only [hpid, decide_eq_true_eq]
    exact hnot
  · simp [hpid]

theorem breadcrumbGo_isSome (docs : List (Doc α)) :
    ∀ (fuel : Nat) (cur : Doc α) (parts seen : List String),
      availIds docs seen < fuel →
      (breadcrumbGo docs cur parts seen fuel).isSome = true := by
  intro fuel
  induction fuel with
  | zero => intro _ _ _ h; omega
  | succ f ih =>
    intro cur parts seen h
    cases hpid : cur.parentDocumentId with
    | none => simp [breadcrumbGo, hpid]
    | some pid =>
      by_cases hempty : pid = ""
      · simp [breadcrumbGo, hpid, hempty]
      · by_cases hseen : pid ∈ seen
        · simp [breadcrumbGo, hpid, hempty, hseen]
        · cases hfind : byIdGet docs pid with
          | none => simp [breadcrumbGo, hpid, hempty, hseen, hfind]
          | some p =>
            have hdec := availIds_decrease docs hfind hseen
            have hrec := ih p (titleOr p :: parts) (pid :: seen) (by omega)
            simp [breadcrumbGo, hpid, hempty, hseen, hfind, hrec]

theorem breadcrumbGo_mono (docs : List (Doc α)) :
    ∀ (fuel fuel' : Nat) (cur : Doc α) (parts seen res : List String),
      fuel ≤ fuel' → breadcrumbGo docs cur parts seen fuel = some res →
      breadcrumbGo docs cur parts seen fuel' = some res := by
  intro fuel
  induction fuel with
  | zero => intro fuel' cur parts seen res _ h; cases h
  | succ f ih =>
    intro fuel' cur parts seen res hle h
    obtain ⟨f', rfl⟩ : ∃ f', fuel' = f' + 1 := ⟨fuel' - 1, by omega⟩
    cases hpid : cur.parentDocumentId with
    | none =>
      simp only [breadcrumbGo, hpid] at h ⊢
      exact h
    | some pid =>
      by_cases hempty : pid = ""
      · simp only [breadcrumbGo, hpid, if_pos hempty] at h ⊢
        exact h
      · by_cases hseen : pid ∈ seen
        · simp only [breadcrumbGo, hpid, if_neg hempty, if_pos hseen] at h ⊢
          exact h
        · cases hfind : byIdGet docs pid with
          | none =>
            simp only [breadcrumbGo, hpid, if_neg hempty, if_neg hseen, hfind] at h ⊢
            exact h
          | some p =>
            simp only [breadcrumbGo, hpid, if_neg hempty, if_neg hseen, hfind] at h ⊢
            exact ih f' p (titleOr p :: parts) (pid :: seen) res (by omega) h

/-- C10.  For every document list — parent references may dangle or form
cycles — `_build_breadcrumbs` terminates: the `seen` set admits each parent
id at most once, so `docs.length + 1` loop iterations always suffice, and
every at-least-that-large fuel yields the same path string, built from the
titles encountered before the cycle or the missing parent. -/
theorem build_breadcrumbs_terminates (docs : List (Doc α)) (doc : Doc α) :
    ∃ s : String, ∀ fuel, docs.length + 1 ≤ fuel →
      build_breadcrumbs docs doc fuel = some s := by
  have havail : availIds docs [] < docs.length + 1 :=
    Nat.lt_succ_of_le (List.length_filter_le _ _)
  have hsome := breadcrumbGo_isSome docs (docs.length + 1) doc [titleOr doc] [] havail
  obtain ⟨parts, hparts⟩ := Option.isSome_iff_exists.mp hsome
  refine ⟨String.intercalate " / " parts, ?_⟩
  intro fuel hfuel
  unfold build_breadcrumbs
  rw [breadcrumbGo_mono docs (docs.length + 1) fuel doc [titleOr doc] [] parts hfuel hparts]
  rfl

end Yonote

